import Mathlib

/-!
Verification of the TokenLoom streaming parser (incremental,
fragmentation-tolerant parser for streamed text).

Strings are modelled as `List Char` (JavaScript iterates the inputs by code
point via `Array.from`, which corresponds to Lean `Char` scalar values for the
inputs considered here).  Each definition is a direct translation of the
TypeScript source named in its doc comment.  Host-provided collaborators
(`Intl.Segmenter`) are not part of the repository; per `src/segment.ts` the
code falls back to the in-repository implementations when the host segmenter
is unavailable, and those fallbacks are what is embedded here.
-/

set_option maxRecDepth 10000

namespace TokenLoom

/-- The character class of JavaScript `/\s/u` (also the set trimmed by
`String.prototype.trim`), used by `segment` (token mode), fence close
matching, and tag/fence regexes of the source. -/
def jsIsSpace (c : Char) : Bool :=
  c = ' ' || c = '\t' || c = '\n' || c = '\r' ||
  c.val = 0x0b || c.val = 0x0c || c.val = 0xa0 || c.val = 0x1680 ||
  (0x2000 ≤ c.val && c.val ≤ 0x200a) ||
  c.val = 0x2028 || c.val = 0x2029 || c.val = 0x202f || c.val = 0x205f ||
  c.val = 0x3000 || c.val = 0xfeff

/-- The backtick character (spelled via its code point). -/
def btChar : Char := Char.ofNat 96

/-- The double-quote character. -/
def dqChar : Char := Char.ofNat 34

/-- The single-quote character. -/
def sqChar : Char := Char.ofNat 39

/-- JS `/[\p{L}\p{N}_]/u` word-character test from `src/parser/utils.ts`
(`isWordChar`) and `src/segment.ts` (`fallbackWords`).  The Unicode `\p{L}`
and `\p{N}` classes are modelled by their ASCII restriction (letters and
digits); none of the properties proved below depend on the extent of this
class. -/
def isWordCharJS (c : Char) : Bool :=
  c.isAlpha || c.isDigit || c = '_'

/-- JS `\w` character class `[A-Za-z0-9_]` (exact; `\w` is ASCII-only). -/
def isWChar (c : Char) : Bool :=
  c.isAlpha || c.isDigit || c = '_'

/-- ASCII letter, the `[a-zA-Z]` class of the tag-name regex. -/
def isAsciiLetter (c : Char) : Bool := c.isAlpha

/-- Tag-name continuation class `[a-zA-Z0-9_-]` of the tag-open regex. -/
def isNameChar (c : Char) : Bool :=
  c.isAlpha || c.isDigit || c = '_' || c = '-'

/-- Shorthand for turning a string literal into the `List Char` model. -/
def str (s : String) : List Char := s.toList

/-! ## Segmentation (`src/segment.ts`)

`segment(input, unit)` splits a string into tokens / words / graphemes.  The
`Intl.Segmenter`-backed paths depend on the host; the in-repository fallbacks
(`fallbackWords`, `fallbackGraphemes`) and the token splitter are embedded.
-/

/-- Emit unit (`EmitUnit` in `src/types.ts`). -/
inductive EmitUnit where
  | token
  | word
  | grapheme
deriving DecidableEq

/-- Loop body of the token-mode splitter in `segment` (`src/segment.ts`,
`unit === "token"` branch): group maximal runs of whitespace /
non-whitespace, carrying the current run `buf` and its class `lastIsSpace`. -/
def tokenSegGo (buf : List Char) (lastIsSpace : Bool) : List Char → List (List Char)
  | [] => if buf.isEmpty then [] else [buf]
  | c :: cs =>
    if jsIsSpace c = lastIsSpace then
      tokenSegGo (buf ++ [c]) lastIsSpace cs
    else
      (if buf.isEmpty then [] else [buf]) ++ tokenSegGo [c] (jsIsSpace c) cs

/-- Token-mode splitter (`segment`, `unit === "token"`). -/
def tokenSeg : List Char → List (List Char)
  | [] => []
  | c :: cs => tokenSegGo [c] (jsIsSpace c) cs

/-- `fallbackWords` from `src/segment.ts`: word splitter treating the comment
operators `//`, `/*`, `*/` as single units.  State: current run `buf` and
`lastIsWord : Option Bool` (`boolean | null` in the source, initially
`false`). -/
def fallbackWordsGo (buf : List Char) (liw : Option Bool) :
    List Char → List (List Char)
  | [] => if buf.isEmpty then [] else [buf]
  | [c] =>
    -- last character: `next` is undefined, both operator tests fail
    match liw with
    | none => [[c]]
      -- source: `buf = ch; lastIsWord = isWord` overwrites `buf` (the source
      -- only reaches `lastIsWord === null` with `buf === ""`), then the
      -- final `if (buf) yield buf` emits it
    | some b =>
      if isWordCharJS c = b then [buf ++ [c]]
        -- `buf += ch`, then the final yield (`buf ++ [c]` is never empty)
      else
        (if buf.isEmpty then [] else [buf]) ++ [[c]]
  | c1 :: c2 :: cs =>
    if c1 = '/' ∧ (c2 = '/' ∨ c2 = '*') then
      (if buf.isEmpty then [] else [buf]) ++ [[c1, c2]] ++
        fallbackWordsGo [] (if buf.isEmpty then liw else none) cs
    else if c1 = '*' ∧ c2 = '/' then
      (if buf.isEmpty then [] else [buf]) ++ [[c1, c2]] ++
        fallbackWordsGo [] (if buf.isEmpty then liw else none) cs
    else
      match liw with
      | none => fallbackWordsGo [c1] (some (isWordCharJS c1)) (c2 :: cs)
      | some b =>
        if isWordCharJS c1 = b then
          fallbackWordsGo (buf ++ [c1]) (some b) (c2 :: cs)
        else
          (if buf.isEmpty then [] else [buf]) ++
            fallbackWordsGo [c1] (some (isWordCharJS c1)) (c2 :: cs)

/-- `fallbackWords` (`src/segment.ts`): initial state `buf = ""`,
`lastIsWord = false`. -/
def fallbackWords (s : List Char) : List (List Char) :=
  fallbackWordsGo [] (some false) s

/-- `fallbackGraphemes` (`src/segment.ts`): code-point iteration. -/
def fallbackGraphemes (s : List Char) : List (List Char) :=
  s.map (fun c => [c])

/-- `segment` (`src/segment.ts`).  Token mode is implemented directly in the
source; word and grapheme modes use the in-repository fallbacks (the
`Intl.Segmenter` paths are host-external, see module doc). -/
def segment (u : EmitUnit) (s : List Char) : List (List Char) :=
  match u with
  | .token => tokenSeg s
  | .grapheme => fallbackGraphemes s
  | .word => fallbackWords s

/-! ## Data model (`src/types.ts`, `src/parser/types.ts`) -/

/-- Fence marker, `"```" | "~~~"` in the source. -/
inductive FenceMarker where
  | backticks
  | tildes
deriving DecidableEq

/-- The fence character of a marker. -/
def FenceMarker.ch : FenceMarker → Char
  | .backticks => btChar
  | .tildes => '~'

/-- Attribute map: a JS object keyed by strings, modelled as an
insertion-ordered association list with last-write-wins updates. -/
def AttrList := List (List Char × List Char)
deriving DecidableEq

/-- `{ name, attrs }` for an open custom tag. -/
structure TagInfo where
  name : List Char
  attrs : AttrList
deriving DecidableEq

/-- `{ fence, lang? }` as recorded in the parsing context. -/
structure FenceCtx where
  fence : FenceMarker
  lang : Option (List Char)
deriving DecidableEq

/-- `{ fence, lang?, fenceLen }` as recorded in `currentFence`. -/
structure FenceInfo where
  fence : FenceMarker
  lang : Option (List Char)
  fenceLen : Nat
deriving DecidableEq

/-- Parsing context (`Context` in `src/types.ts`).  A missing key and an
explicit `null` are both modelled as `none` (the source only distinguishes
them via JS truthiness, never otherwise). -/
structure Context where
  inTag : Option TagInfo := none
  inCodeFence : Option FenceCtx := none
deriving DecidableEq

/-- Parser mode (`Mode` in `src/parser/types.ts`). -/
inductive Mode where
  | text
  | inTag
  | inFence
deriving DecidableEq

/-- Parser events (`Event` in `src/types.ts`).  The `context`/`metadata`
fields (always the shared mutable object / absent at parser level) are not
modelled; `in` is modelled by the `ctx` argument of each constructor. -/
inductive Event where
  | text (t : List Char) (ctx : Context)
  | tagOpen (name : List Char) (attrs : AttrList) (ctx : Context)
  | tagClose (name : List Char) (ctx : Context)
  | fenceStart (fence : FenceMarker) (lang : Option (List Char)) (ctx : Context)
  | fenceChunk (t : List Char) (ctx : Context)
  | fenceEnd (ctx : Context)
  | flushEv
  | endEv
  | errorEv (reason : List Char) (recoverable : Bool)
deriving DecidableEq

/-- Internal parser state (`InternalState` in `src/parser/types.ts`). -/
structure InternalState where
  context : Context := {}
  mode : Mode := .text
  buffer : List Char := []
  textHold : List Char := []
  currentTag : Option TagInfo := none
  currentFence : Option FenceInfo := none
  segHold : List Char := []
  fenceHold : List Char := []
deriving DecidableEq

/-- Resolved options (`Opts` in `src/parser/types.ts`). -/
structure Opts where
  emitUnit : EmitUnit
  bufferLength : Nat
  tags : List (List Char)
  specBufferLength : Nat
  specMinParseLength : Nat
deriving DecidableEq

/-- Caller-facing options (`ParserOptions` in `src/types.ts`); every field
optional. -/
structure ParserOptions where
  emitUnit : Option EmitUnit := none
  bufferLength : Option Nat := none
  tags : Option (List (List Char)) := none
  specBufferLength : Option Nat := none
  specMinParseLength : Option Nat := none
deriving DecidableEq

/-- Option resolution from the `StreamingParser` constructor
(`src/parser/parser.class.ts`, lines 16-23): `emitUnit ?? "token"`,
`bufferLength ?? 64`, `tags ?? []`,
`specBufferLength ?? opts?.bufferLength ?? 64`,
`specMinParseLength ?? 10`. -/
def mkOpts (o : Option ParserOptions) : Opts where
  emitUnit := (o.bind (·.emitUnit)).getD .token
  bufferLength := (o.bind (·.bufferLength)).getD 64
  tags := (o.bind (·.tags)).getD []
  specBufferLength :=
    ((o.bind (·.specBufferLength)).orElse fun _ => o.bind (·.bufferLength)).getD 64
  specMinParseLength := (o.bind (·.specMinParseLength)).getD 10

/-- Initial internal state (`StreamingParser` constructor). -/
def initState : InternalState := {}

/-! ## Buffer and boundary utilities (`src/parser/utils.ts`) -/

/-- Index of the first occurrence of `pat` in `s` (JS `String.indexOf`). -/
def firstIdxOfSub (s pat : List Char) : Option Nat :=
  go s 0
where
  go : List Char → Nat → Option Nat
    | s, i =>
      if pat.isPrefixOf s then some i
      else match s with
        | [] => none
        | _ :: t => go t (i + 1)

/-- One anchored attempt of the fence-open regex
`(^|\n)[ ]{0,3}([`~]{1,})` (`indexOfFenceOpen` in `src/parser/utils.ts`):
after a line start, up to three spaces then a fence character.  Returns the
offset of the run relative to the line start (the greedy space count can only
succeed with the exact leading-space run, since fence characters are not
spaces). -/
def fenceOpenHead (s : List Char) : Option Nat :=
  let sp := (s.takeWhile (· = ' ')).length
  if sp ≤ 3 then
    match s.drop sp with
    | c :: _ => if c = btChar || c = '~' then some sp else none
    | [] => none
  else none

/-- `indexOfFenceOpen` (`src/parser/utils.ts`): index of the run of the first
match of `(^|\n)[ ]{0,3}([`~]{1,})` (the regex engine scans start positions
left to right; `^` anchors position 0 and `\n` anchors every newline). -/
def indexOfFenceOpen (s : List Char) : Option Nat :=
  match fenceOpenHead s with
  | some sp => some sp
  | none => go s 0
where
  go : List Char → Nat → Option Nat
    | [], _ => none
    | c :: t, i =>
      if c = '\n' then
        match fenceOpenHead t with
        | some sp => some (i + 1 + sp)
        | none => go t (i + 1)
      else go t (i + 1)

/-- `findNextSpecialIndex` (`src/parser/utils.ts`): minimum of
`indexOf("<")` and `indexOfFenceOpen`. -/
def findNextSpecialIndex (buffer : List Char) : Option Nat :=
  let lt := firstIdxOfSub buffer ['<']
  let fe := indexOfFenceOpen buffer
  match lt, fe with
  | none, none => none
  | some i, none => some i
  | none, some j => some j
  | some i, some j => some (min i j)

/-- The lookahead `(?=\s*(\n|$))` of the fence-close regex, applied to the
text following the delimiter: some run of whitespace characters must reach a
newline or the end of the buffer.  Equivalent to: the whitespace run not
containing a newline is followed by a newline or extends to the end. -/
def wsToEol (rest : List Char) : Bool :=
  let u := rest.takeWhile (fun c => jsIsSpace c && c ≠ '\n')
  u.length = rest.length || (rest.drop u.length).head? = some '\n'

/-- One anchored attempt of the fence-close regex
`(^|\n)[ ]{0,3}DELIM(?=\s*(\n|$))` (`indexOfFenceClose` in
`src/parser/utils.ts`): after a line start, up to three spaces, the exact
delimiter, then the lookahead.  Returns the offset of the delimiter relative
to the line start. -/
def fenceCloseHead (delim s : List Char) : Option Nat :=
  let sp := (s.takeWhile (· = ' ')).length
  if sp ≤ 3 && delim.isPrefixOf (s.drop sp) &&
      wsToEol (s.drop (sp + delim.length)) then
    some sp
  else none

/-- `indexOfFenceClose` (`src/parser/utils.ts`): index of the delimiter of
the first match of `(^|\n)[ ]{0,3}DELIM(?=\s*(\n|$))` (the source computes
`m.index + m[0].indexOf(delim)`). -/
def indexOfFenceClose (s delim : List Char) : Option Nat :=
  match fenceCloseHead delim s with
  | some sp => some sp
  | none => go s 0
where
  go : List Char → Nat → Option Nat
    | [], _ => none
    | c :: t, i =>
      if c = '\n' then
        match fenceCloseHead delim t with
        | some sp => some (i + 1 + sp)
        | none => go t (i + 1)
      else go t (i + 1)

/-- Last-write-wins insertion-ordered update of an attribute list (JS object
assignment `attrs[key] = value`). -/
def attrsUpsert (attrs : AttrList) (k v : List Char) : AttrList :=
  match attrs with
  | [] => [(k, v)]
  | (k', v') :: rest =>
    if k' = k then (k', v) :: rest else (k', v') :: attrsUpsert rest k v

/-- One anchored attempt of the attribute regex `(\w+)=(["'])(.*?)\2`
(`parseAttrs` in `src/parser/utils.ts`): a nonempty `\w` run, `=`, a quote,
then a lazily matched value (no line terminators, `.` does not match them)
up to the same quote.  Returns `(key, value, total length)`. -/
def attrMatchHead (s : List Char) : Option (List Char × List Char × Nat) :=
  let k := s.takeWhile isWChar
  if k.isEmpty then none
  else match s.drop k.length with
    | '=' :: q :: rest =>
      if q = dqChar || q = sqChar then
        let v := rest.takeWhile (fun c => c ≠ q && c ≠ '\n' && c ≠ '\r' &&
          c.val ≠ 0x2028 && c.val ≠ 0x2029)
        if (rest.drop v.length).head? = some q then
          some (k, v, k.length + 2 + v.length + 1)
        else none
      else none
    | _ => none

/-- Scanning loop of `parseAttrs`: the regex engine tries each start
position, consuming the whole match on success (fuel bounds the scan; each
step consumes at least one character, so `s.length` suffices). -/
def parseAttrsGo : Nat → List Char → AttrList → AttrList
  | 0, _, acc => acc
  | _ + 1, [], acc => acc
  | fuel + 1, s@(_ :: t), acc =>
    match attrMatchHead s with
    | some (k, v, len) => parseAttrsGo fuel (s.drop len) (attrsUpsert acc k v)
    | none => parseAttrsGo fuel t acc

/-- `parseAttrs` (`src/parser/utils.ts`). -/
def parseAttrs (s : List Char) : AttrList :=
  parseAttrsGo s.length s []

/-- `serializeTag` (`src/parser/utils.ts`): `name attrs>` or `name>`; each
attribute rendered as `key="value"`, space-separated (the attribute string is
empty exactly when there are no attributes). -/
def serializeTag (t : TagInfo) : List Char :=
  if t.attrs.isEmpty then t.name ++ ['>']
  else
    t.name ++ ' ' ::
      (List.intercalate [' ']
        (t.attrs.map fun kv => kv.1 ++ '=' :: dqChar :: kv.2 ++ [dqChar])) ++
      ['>']

/-- `pushSegmentedText` (`src/parser/utils.ts`): segment `toSegment`; in
word mode retain a trailing word-character piece in `segHold` / `fenceHold`
(or clear that hold); emit the remaining pieces as `text` or
`code-fence-chunk` events carrying the current context. -/
def pushSegmentedText (o : Opts) (toSegment : List Char) (isFence : Bool)
    (st : InternalState) : List Event × InternalState :=
  let tokens := segment o.emitUnit toSegment
  let (tokens, st) :=
    if o.emitUnit = .word ∧ ¬tokens.isEmpty then
      match tokens.getLast? with
      | some last =>
        match last.getLast? with
        | some lastChar =>
          if isWordCharJS lastChar then
            (tokens.dropLast,
             if isFence then { st with fenceHold := st.fenceHold ++ last }
             else { st with segHold := st.segHold ++ last })
          else
            (tokens,
             if isFence then { st with fenceHold := [] }
             else { st with segHold := [] })
        | none =>
          -- `last` empty: `lastChar` is falsy, hold is cleared
          (tokens,
           if isFence then { st with fenceHold := [] }
           else { st with segHold := [] })
      | none => (tokens, st)
    else (tokens, st)
  (tokens.map (fun t =>
    if isFence then Event.fenceChunk t st.context else Event.text t st.context),
   st)

/-- `flushTextHold` (`src/parser/utils.ts`): emit `segHold ++ textHold` as
segmented text events and clear both holds. -/
def flushTextHold (o : Opts) (st : InternalState) : List Event × InternalState :=
  if st.textHold.isEmpty ∧ st.segHold.isEmpty then ([], st)
  else
    let toSegment := st.segHold ++ st.textHold
    let st1 := { st with segHold := [] }
    let (evs, st2) := pushSegmentedText o toSegment false st1
    (evs, { st2 with textHold := [] })

/-! ## Text handler (`src/parser/text-handler.ts`) -/

/-- Match of the tag-open regex `^<([a-zA-Z][a-zA-Z0-9_-]*)([^>]*)>` at the
head of `s`: `<`, a name (letter then name characters, greedily — name
characters are never `>` so no backtracking arises), then everything up to
the first `>` as the attribute section.  Returns
`(name, attribute section, length of the whole match)`. -/
def tagOpenMatch (s : List Char) : Option (List Char × List Char × Nat) :=
  match s with
  | '<' :: rest =>
    match rest with
    | c :: _ =>
      if isAsciiLetter c then
        let name := rest.takeWhile isNameChar
        -- the first character is a letter, hence in the name class; the
        -- greedy run therefore starts with it
        let after := rest.drop name.length
        match after.findIdx? (· = '>') with
        | some j => some (name, after.take j, 1 + name.length + j + 1)
        | none => none
      else none
    | [] => none
  | _ => none

/-- Test of `/^<([a-zA-Z]|\/)\w*/` (`looksLikeTagStart` in the text
handler): `<` followed by a letter or slash. -/
def looksLikeTagStart (s : List Char) : Bool :=
  match s with
  | '<' :: c :: _ => isAsciiLetter c || c = '/'
  | _ => false

/-- `TextHandler.process` (`src/parser/text-handler.ts`), fall-through part
after the tag-open attempt: fence-open handling, incomplete-`<` handling,
default single-character consumption. -/
def textElsePart (o : Opts) (st : InternalState) : List Event × InternalState :=
  let special := st.buffer
  match special.head? with
  | none => ([], st)  -- unreachable: the buffer starts with a special
  | some c0 =>
    if c0 = btChar ∨ c0 = '~' then
      -- fenced code block at start of line; count the same-character run
      let runLen := (special.takeWhile (· = c0)).length
      if runLen < 3 then
        if runLen = special.length then
          if o.specBufferLength ≤ special.length then
            ([], { st with textHold := st.textHold ++ special, buffer := [] })
          else ([], st)  -- wait for more data to decide
        else
          ([], { st with textHold := st.textHold ++ special.take runLen,
                         buffer := special.drop runLen })
      else
        match special.findIdx? (· = '\n') with
        | none =>
          if o.specBufferLength ≤ special.length then
            ([], { st with textHold := st.textHold ++ special, buffer := [] })
          else ([], st)  -- wait for end of line
        | some eolIdx =>
          let fence : FenceMarker := if c0 = btChar then .backticks else .tildes
          let infoRaw := trimWs ((special.take eolIdx).drop runLen)
          let lang : Option (List Char) :=
            if infoRaw.isEmpty then none else some infoRaw
          let (evs1, st1) := flushTextHold o st
          let ctx : Context := { st1.context with inCodeFence := some ⟨fence, lang⟩ }
          (evs1 ++ [Event.fenceStart fence lang ctx],
           { st1 with currentFence := some ⟨fence, lang, runLen⟩,
                      context := ctx,
                      buffer := special.drop (eolIdx + 1),
                      mode := .inFence })
    else
      if c0 = '<' then
        if special.length = 1 then
          if o.specBufferLength ≤ special.length then
            ([], { st with textHold := st.textHold ++ special, buffer := [] })
          else ([], st)
        else
          if looksLikeTagStart special ∧ ¬special.contains '>' then
            if o.specBufferLength ≤ special.length then
              ([], { st with textHold := st.textHold ++ special, buffer := [] })
            else ([], st)
          else
            ([], { st with textHold := st.textHold ++ special.take 1,
                           buffer := special.drop 1 })
      else
        ([], { st with textHold := st.textHold ++ special.take 1,
                       buffer := special.drop 1 })
where
  /-- JS `String.prototype.trim` (same whitespace set as `\s`). -/
  trimWs (s : List Char) : List Char :=
    (s.dropWhile jsIsSpace).reverse.dropWhile jsIsSpace |>.reverse

/-- Prefix move of `TextHandler.process` step 3: plain text before the
special candidate goes into `textHold`. -/
def movePlainPrefix (st : InternalState) (idx : Nat) : InternalState :=
  if 0 < idx then
    { st with textHold := st.textHold ++ st.buffer.take idx,
              buffer := st.buffer.drop idx }
  else st

/-- `TextHandler.process` after the prefix move: the buffer now begins with
the special candidate; try the tag-open match, otherwise fall through.
(The source also computes an unused `closeMatch` here; it has no
behavioural effect.) -/
def textProcessMain (o : Opts) (st : InternalState) : List Event × InternalState :=
  match tagOpenMatch st.buffer with
  | some (tag, attrsRaw, endIdx) =>
    if o.tags.contains tag then
      if st.buffer.length < endIdx then ([], st)
        -- dead branch (`if (special.length < endIdx) return`: the match
        -- length can never exceed the matched string)
      else
        let (evs1, st1) := flushTextHold o st
        let attrs := parseAttrs attrsRaw
        let ctx : Context := { st1.context with inTag := some ⟨tag, attrs⟩ }
        (evs1 ++ [Event.tagOpen tag attrs ctx],
         { st1 with currentTag := some ⟨tag, attrs⟩,
                    context := ctx,
                    buffer := st.buffer.drop endIdx,
                    mode := .inTag })
    else textElsePart o st  -- not a recognized tag: fall through
  | none => textElsePart o st

/-- `TextHandler.process` (`src/parser/text-handler.ts`). -/
def textProcess (o : Opts) (st : InternalState) : List Event × InternalState :=
  if st.buffer.length < o.specMinParseLength then
    match findNextSpecialIndex st.buffer with
    | some 0 => ([], st)  -- special potentially starts here; wait
    | none => ([], { st with textHold := st.textHold ++ st.buffer, buffer := [] })
    | some i =>
      ([], { st with textHold := st.textHold ++ st.buffer.take i,
                     buffer := st.buffer.drop i })
  else
    match findNextSpecialIndex st.buffer with
    | none => ([], { st with textHold := st.textHold ++ st.buffer, buffer := [] })
    | some idx => textProcessMain o (movePlainPrefix st idx)

/-! ## Tag handler (`src/unnamed/part_002`, `TagHandler.process`) -/

/-- Match of the close-tag regex `^<\/NAME\s*>` at the head of `rest`:
`</`, the name, a whitespace run, `>`.  Returns the matched length. -/
def closeTagMatch (name rest : List Char) : Option Nat :=
  if ('<' :: '/' :: name).isPrefixOf rest then
    let after := rest.drop (2 + name.length)
    let w := after.takeWhile jsIsSpace
    if (after.drop w.length).head? = some '>' then
      some (2 + name.length + w.length + 1)
    else none
  else none

/-- `TagHandler.process`. -/
def tagProcess (o : Opts) (st : InternalState) : List Event × InternalState :=
  match st.currentTag with
  | none => ([], { st with mode := .text })  -- safety
  | some t =>
    let marker := '<' :: '/' :: t.name
    match firstIdxOfSub st.buffer marker with
    | none =>
      -- no close marker yet: emit most of the buffer, retain a small tail
      let retain := max (marker.length - 1) 1
      if retain < st.buffer.length then
        let emitPart := st.buffer.take (st.buffer.length - retain)
        let toSegment := st.segHold ++ emitPart
        let st1 := { st with segHold := [] }
        let (evs, st2) := pushSegmentedText o toSegment false st1
        (evs, { st2 with buffer := st.buffer.drop (st.buffer.length - retain) })
      else ([], st)
    | some idx =>
      let st1 :=
        if 0 < idx then
          { st with textHold := st.textHold ++ st.buffer.take idx }
        else st
      let rest := st.buffer.drop idx
      match closeTagMatch t.name rest with
      | none => ([], { st1 with buffer := rest })  -- partial close tag; wait
      | some mlen =>
        let (evs1, st2) :=
          if ¬st1.textHold.isEmpty ∨ ¬st1.segHold.isEmpty then
            let toSegment := st1.segHold ++ st1.textHold
            ((segment o.emitUnit toSegment).map (Event.text · st1.context),
             { st1 with segHold := [], textHold := [] })
          else ([], st1)
        (evs1 ++ [Event.tagClose t.name st2.context],
         { st2 with buffer := rest.drop mlen,
                    context := { st2.context with inTag := none },
                    currentTag := none,
                    mode := .text })

/-! ## Fence handler (`src/parser/fence-handler.ts`) -/

/-- Consumed length of the close-delimiter regex `^DELIM\s*(?:\n|$)` applied
to `rest` (which begins with the delimiter): the greedy `\s*` backtracks to
the last newline inside the leading whitespace run, or the whole run when it
reaches the end of the buffer; `delim.length` when there is no match (the
source falls back to `delim.length` in that case). -/
def fenceCloseConsume (delim rest : List Char) : Nat :=
  let after := rest.drop delim.length
  let w := after.takeWhile jsIsSpace
  if w.length = after.length then delim.length + w.length
  else
    match (w.enum.filter (fun p => p.2 = '\n')).getLast? with
    | some p => delim.length + p.1 + 1
    | none => delim.length

/-- `FenceHandler.process`. -/
def fenceProcess (o : Opts) (st : InternalState) : List Event × InternalState :=
  match st.currentFence with
  | none => ([], { st with mode := .text })  -- safety
  | some f =>
    if st.buffer.length < o.specMinParseLength then ([], st)
    else
      let delim := List.replicate f.fenceLen f.fence.ch
      match indexOfFenceClose st.buffer delim with
      | none =>
        let retain := max (o.specMinParseLength - 1) delim.length
        if retain < st.buffer.length then
          let emitPart := st.buffer.take (st.buffer.length - retain)
          let toSegment := st.fenceHold ++ emitPart
          let st1 := { st with fenceHold := [] }
          let (evs, st2) := pushSegmentedText o toSegment true st1
          (evs, { st2 with buffer := st.buffer.drop (st.buffer.length - retain) })
        else ([], st)
      | some idx =>
        let (evs1, st1) :=
          if 0 < idx then
            let chunk := st.buffer.take idx
            let toSegment := st.fenceHold ++ chunk
            pushSegmentedText o toSegment true { st with fenceHold := [] }
          else ([], st)
        let rest := st.buffer.drop idx
        let consume := fenceCloseConsume delim rest
        let st2 := { st1 with buffer := rest.drop consume }
        let (evs2, st3) :=
          if ¬st2.fenceHold.isEmpty then
            let (e, s) := pushSegmentedText o st2.fenceHold true st2
            (e, { s with fenceHold := [] })
          else ([], st2)
        (evs1 ++ evs2 ++ [Event.fenceEnd st3.context],
         { st3 with context := { st3.context with inCodeFence := none },
                    currentFence := none,
                    mode := .text })

/-! ## Streaming parser core (`src/parser/parser.class.ts`) -/

/-- Handler dispatch on the current mode (the `switch` in `feedText`). -/
def stepMode (o : Opts) (st : InternalState) : List Event × InternalState :=
  match st.mode with
  | .text => textProcess o st
  | .inTag => tagProcess o st
  | .inFence => fenceProcess o st

/-- The `while` loop of `feedText`: step the current handler; stop when the
buffer is empty or an iteration leaves the buffer length unchanged; after a
productive iteration, force-flush `textHold` when it reaches `bufferLength`.
The fuel argument bounds the iteration count; since a productive iteration
strictly shrinks the buffer (handlers never grow it, see
`stepMode_buffer_le`), fuel `st.buffer.length` makes this model the source
loop exactly. -/
def feedLoopF (o : Opts) : Nat → InternalState → List Event × InternalState
  | 0, st => ([], st)
  | fuel + 1, st =>
    if st.buffer.isEmpty then ([], st)
    else
      let (evs, st1) := stepMode o st
      if st1.buffer.length < st.buffer.length then
        let (evs2, st2) :=
          if o.bufferLength ≤ st1.textHold.length then flushTextHold o st1
          else ([], st1)
        let (evs3, st3) := feedLoopF o fuel st2
        (evs ++ evs2 ++ evs3, st3)
      else (evs, st1)
        -- the source breaks exactly when the length is unchanged; handlers
        -- never grow the buffer, so `¬ <` coincides with `=` here

/-- The `feedText` dispatch loop with its exact fuel. -/
def feedLoop (o : Opts) (st : InternalState) : List Event × InternalState :=
  feedLoopF o st.buffer.length st

/-- `StreamingParser.feedText`: append the input to the buffer, run the
dispatch loop, then emit held text if the buffer emptied (except in fence
mode). -/
def feedText (o : Opts) (st : InternalState) (input : List Char) :
    List Event × InternalState :=
  let st0 := { st with buffer := st.buffer ++ input }
  let (evs, st1) := feedLoop o st0
  if st1.buffer.isEmpty ∧ ¬st1.textHold.isEmpty ∧ st1.mode ≠ .inFence then
    let (evs2, st2) := flushTextHold o st1
    (evs ++ evs2, st2)
  else (evs, st1)

/-- `StreamingParser.flush` (`src/parser/parser.class.ts`): move the buffer
into `textHold`; re-inject an unterminated tag's opening markup as literal
text; close an open fence (emitting held content as chunks then
`code-fence-end`); flush remaining held text; emit the `flush` event. -/
def parserFlush (o : Opts) (st : InternalState) : List Event × InternalState :=
  let st1 :=
    if ¬st.buffer.isEmpty then
      { st with textHold := st.textHold ++ st.buffer, buffer := [] }
    else st
  let st2 :=
    if st1.mode = .inTag then
      match st1.currentTag with
      | some t =>
        { st1 with textHold := st1.textHold ++ '<' :: serializeTag t,
                   mode := .text, currentTag := none }
      | none =>
        -- the source dereferences `currentTag!` here; `mode = inTag` implies
        -- it is set on every reachable state
        { st1 with mode := .text, currentTag := none }
    else st1
  let (evsF, st3) :=
    if st2.mode = .inFence then
      let (evsC, stC) :=
        if ¬st2.textHold.isEmpty ∨ ¬st2.fenceHold.isEmpty then
          let toSegment := st2.fenceHold ++ st2.textHold
          ((segment o.emitUnit toSegment).map (Event.fenceChunk · st2.context),
           { st2 with fenceHold := [], textHold := [] })
        else ([], st2)
      (evsC ++ [Event.fenceEnd stC.context],
       { stC with context := { stC.context with inCodeFence := none },
                  mode := .text, currentFence := none })
    else ([], st2)
  let (evsT, st4) :=
    if ¬st3.textHold.isEmpty then flushTextHold o st3 else ([], st3)
  (evsF ++ evsT ++ [Event.flushEv], { st4 with buffer := [] })

/-- A whole `TokenLoom` session with no registered plugins and no emit
delay (`src/src/tokenloom.ts`): feed the chunks in order, then `flush()`,
which also emits the final `end` event. -/
def runChunks (o : Opts) : InternalState → List (List Char) →
    List Event × InternalState
  | st, [] => ([], st)
  | st, c :: cs =>
    let (evs, st1) := feedText o st c
    let (evs2, st2) := runChunks o st1 cs
    (evs ++ evs2, st2)

/-- Full emitted event stream of feeding `chunks` then flushing. -/
def tokenLoomRun (o : Opts) (chunks : List (List Char)) : List Event :=
  let (evs, st) := runChunks o initState chunks
  let (evsF, _) := parserFlush o st
  evs ++ evsF ++ [Event.endEv]

/-! ## Event-stream observations -/

/-- Concatenation of the `text` payloads of all `text` events. -/
def textConcat (evs : List Event) : List Char :=
  (evs.filterMap fun e =>
    match e with
    | .text t _ => some t
    | _ => none).flatten

/-- Concatenation of the `text` payloads of all `code-fence-chunk` events. -/
def chunkConcat (evs : List Event) : List Char :=
  (evs.filterMap fun e =>
    match e with
    | .fenceChunk t _ => some t
    | _ => none).flatten

/-- The `in` context stamped on an event, when it carries one. -/
def eventCtx : Event → Option Context
  | .text _ c => some c
  | .tagOpen _ _ c => some c
  | .tagClose _ c => some c
  | .fenceStart _ _ c => some c
  | .fenceChunk _ c => some c
  | .fenceEnd c => some c
  | .flushEv => none
  | .endEv => none
  | .errorEv _ _ => none

/-- An event whose stamped context has both `in_tag` and `in_code_fence`
non-empty. -/
def eventHasBothCtx (e : Event) : Bool :=
  match eventCtx e with
  | some c => c.inTag.isSome && c.inCodeFence.isSome
  | none => false

/-! ## Concrete scenario material -/

/-- Default options with `tags = ["think"]` (scenario configuration of the
spec's end-to-end tests 2 and 4). -/
def optsThink : Opts := mkOpts (some { tags := some [str "think"] })

/-- Fully default options. -/
def optsDefault : Opts := mkOpts none

/-- The context while inside `<think>`. -/
def ctxThink : Context := ⟨some ⟨str "think", []⟩, none⟩

/-- Parser state after feeding `"Hello <thi"` from the initial state. -/
def stHello1 : InternalState :=
  { buffer := str "<thi", textHold := str "Hello " }

/-- Parser state after additionally feeding `"nk>reason"`. -/
def stHello2 : InternalState :=
  { context := ctxThink, mode := .inTag, buffer := str "reason",
    currentTag := some ⟨str "think", []⟩ }

/-- Parser state after feeding `"<think>incomplete"` from the initial
state. -/
def stIncomplete : InternalState :=
  { context := ctxThink, mode := .inTag, buffer := str "mplete",
    currentTag := some ⟨str "think", []⟩ }

/-- Parser state after flushing `stIncomplete`: note the stale
`context.inTag` left behind by `flush` (the in-tag branch clears
`currentTag` but not the context). -/
def stStaleCtx : InternalState :=
  { context := ctxThink, mode := .text }

/-- An in-tag state whose buffer's first `"</think"` belongs to
`"</thinker>"`, with a genuine close tag arriving later. -/
def stStuck : InternalState :=
  { context := ctxThink, mode := .inTag,
    buffer := str "</thinker> later </think>",
    currentTag := some ⟨str "think", []⟩ }

/-! ## Event bus transformation pipeline (`src/events.ts`) -/

/-- Result of a transformation stage function: `null` drops the event, a
single event replaces it, an array splices in its contents. -/
inductive TransformResult where
  | drop
  | one (e : Event)
  | many (es : List Event)
deriving DecidableEq

/-- Flattening of a stage result into the accumulating event list. -/
def TransformResult.flat : TransformResult → List Event
  | .drop => []
  | .one e => [e]
  | .many es => es

/-- A stage function; `Except` models a JS function that may throw. -/
def StageFn := Event → Except (List Char) TransformResult

/-- A registered sink as seen by the pipeline (`IPlugin`): a name and up to
three optional stage functions. -/
structure PluginM where
  name : List Char
  preTransform : Option StageFn := none
  transform : Option StageFn := none
  postTransform : Option StageFn := none

/-- The inner per-plugin loop of `EventBus.transformEvent`: apply the stage
function to every event, flattening results; a throw aborts the loop
(discarding the partial list). -/
def runStageList (f : StageFn) : List Event → Except (List Char) (List Event)
  | [] => .ok []
  | e :: es =>
    match f e with
    | .error m => .error m
    | .ok r =>
      match runStageList f es with
      | .error m => .error m
      | .ok rest => .ok (r.flat ++ rest)

/-- One plugin's stage in one phase of `transformEvent`: on success the new
list replaces the old; on a throw the original list is kept, and a console
warning is recorded unless `suppressPluginErrors` is set. -/
def applyPluginStage (suppress : Bool) (stage : Option StageFn)
    (events : List Event) : List Event × List (List Char) :=
  match stage with
  | none => (events, [])
  | some f =>
    match runStageList f events with
    | .ok new => (new, [])
    | .error m => (events, if suppress then [] else [m])

/-- One phase (pre / main / post) of `transformEvent`: fold the plugins in
registration order, accumulating console warnings. -/
def runPhase (suppress : Bool) (sel : PluginM → Option StageFn) :
    List PluginM → List Event → List Event × List (List Char)
  | [], events => (events, [])
  | p :: ps, events =>
    let (ev1, w1) := applyPluginStage suppress (sel p) events
    let (ev2, w2) := runPhase suppress sel ps ev1
    (ev2, w1 ++ w2)

/-- `EventBus.transformEvent` (`src/events.ts`): three phases over the
singleton list `[event]`.  The second component collects the `console.warn`
output (the out-of-band error reporting of the source). -/
def transformEvent (suppress : Bool) (plugins : List PluginM) (e : Event) :
    List Event × List (List Char) :=
  let (ev1, w1) := runPhase suppress (·.preTransform) plugins [e]
  let (ev2, w2) := runPhase suppress (·.transform) plugins ev1
  let (ev3, w3) := runPhase suppress (·.postTransform) plugins ev2
  (ev3, w1 ++ w2 ++ w3)

/-- Whether an event list contains an `error`-type event. -/
def containsErrorEv (evs : List Event) : Bool :=
  evs.any fun e =>
    match e with
    | .errorEv _ _ => true
    | _ => false

/-- A sink whose main `transform` stage always throws. -/
def throwingPlugin : PluginM :=
  { name := str "faulty",
    transform := some (fun _ => .error (str "Plugin error")) }

/-! ## The closing-line specification for claim C4 -/

/-- Split a buffer into its lines at `\n` (the anchors `^` and `\n` of the
fence-close regex visit exactly these line starts). -/
def splitNl : List Char → List (List Char)
  | [] => [[]]
  | c :: t =>
    if c = '\n' then [] :: splitNl t
    else
      match splitNl t with
      | l :: ls => (c :: l) :: ls
      | [] => [[c]]  -- unreachable: `splitNl` never returns `[]`

/-- The claim's closing-line form: after at most three leading spaces, the
line consists of exactly `fenceLen` copies of the open character followed
only by whitespace (fence characters are not whitespace, so a trailing
all-whitespace tail forces the run to be exactly `fenceLen` long). -/
def closingLineSpec (c : Char) (fenceLen : Nat) (line : List Char) : Prop :=
  ∃ k tail, k ≤ 3 ∧ line = List.replicate k ' ' ++ List.replicate fenceLen c ++ tail ∧
    tail.all jsIsSpace

/-! ## Invariants and reachability for claims C8 and C9 -/

/-- The structural-scope invariant: the active scope matches the mode, and
the two scopes are mutually exclusive. -/
def InvA (st : InternalState) : Prop :=
  (st.mode = .text → st.currentTag = none ∧ st.currentFence = none) ∧
  (st.mode = .inTag → st.currentFence = none) ∧
  (st.mode = .inFence → st.currentTag = none)

/-- States reachable from the initial state by any sequence of `feed` and
`flush` calls. -/
inductive Reachable (o : Opts) : InternalState → Prop where
  | init : Reachable o initState
  | feed (st : InternalState) (input : List Char) :
      Reachable o st → Reachable o (feedText o st input).2
  | flush (st : InternalState) :
      Reachable o st → Reachable o (parserFlush o st).2

/-! # Theorems -/

theorem tokenSegGo_flatten (cs : List Char) :
    ∀ (buf : List Char) (b : Bool),
      (tokenSegGo buf b cs).flatten = buf ++ cs := by
  induction cs with
  | nil =>
    intro buf b
    by_cases h : buf.isEmpty <;>
      simp_all [tokenSegGo, List.isEmpty_iff]
  | cons c cs ih =>
    intro buf b
    unfold tokenSegGo
    by_cases h : jsIsSpace c = b
    · simp only [if_pos h, ih]
      simp
    · rw [if_neg h]
      by_cases hb : buf.isEmpty <;>
        simp_all [List.isEmpty_iff, ih [c] (jsIsSpace c)]

theorem tokenSeg_flatten (s : List Char) : (tokenSeg s).flatten = s := by
  cases s with
  | nil => rfl
  | cons c cs => simpa using tokenSegGo_flatten cs [c] (jsIsSpace c)

theorem fallbackWordsGo_flatten (n : Nat) :
    ∀ (cs : List Char), cs.length ≤ n → ∀ (buf : List Char) (liw : Option Bool),
      (liw = none → buf = []) →
      (fallbackWordsGo buf liw cs).flatten = buf ++ cs := by
  induction n with
  | zero =>
    intro cs hcs buf liw hinv
    have : cs = [] := List.eq_nil_of_length_eq_zero (Nat.le_zero.mp hcs)
    subst this
    by_cases h : buf.isEmpty <;> simp_all [fallbackWordsGo, List.isEmpty_iff]
  | succ n ih =>
    intro cs hcs buf liw hinv
    match cs with
    | [] =>
      by_cases h : buf.isEmpty <;> simp_all [fallbackWordsGo, List.isEmpty_iff]
    | [c] =>
      cases liw with
      | none => simp [fallbackWordsGo, hinv rfl]
      | some b =>
        by_cases h : isWordCharJS c = b
        · simp [fallbackWordsGo, h]
        · rw [fallbackWordsGo, if_neg h]
          by_cases hb : buf.isEmpty <;>
            simp_all [List.isEmpty_iff]
    | c1 :: c2 :: cs' =>
      have hlen2 : cs'.length ≤ n := by
        simp only [List.length_cons] at hcs
        omega
      have hlen1 : (c2 :: cs').length ≤ n := by
        simp only [List.length_cons] at hcs ⊢
        omega
      have ih2 : ∀ (buf : List Char) (liw : Option Bool),
          (liw = none → buf = []) →
          (fallbackWordsGo buf liw cs').flatten = buf ++ cs' :=
        fun buf liw h => ih cs' hlen2 buf liw h
      have ih1 : ∀ (buf : List Char) (liw : Option Bool),
          (liw = none → buf = []) →
          (fallbackWordsGo buf liw (c2 :: cs')).flatten = buf ++ c2 :: cs' :=
        fun buf liw h => ih (c2 :: cs') hlen1 buf liw h
      unfold fallbackWordsGo
      by_cases hop1 : c1 = '/' ∧ (c2 = '/' ∨ c2 = '*')
      · rw [if_pos hop1]
        by_cases hb : buf.isEmpty <;>
          simp_all [List.isEmpty_iff, ih2 [] (if buf = [] then liw else none)]
      · rw [if_neg hop1]
        by_cases hop2 : c1 = '*' ∧ c2 = '/'
        · rw [if_pos hop2]
          by_cases hb : buf.isEmpty <;>
            simp_all [List.isEmpty_iff, ih2 [] (if buf = [] then liw else none)]
        · rw [if_neg hop2]
          cases liw with
          | none =>
            simp_all [ih1 [c1] (some (isWordCharJS c1)) (by simp)]
          | some b =>
            by_cases h : isWordCharJS c1 = b
            · simp_all [List.isEmpty_iff,
                ih1 (buf ++ [c1]) (some b) (by simp)]
            · by_cases hb : buf.isEmpty <;>
                simp_all [List.isEmpty_iff,
                  ih1 [c1] (some (isWordCharJS c1)) (by simp)]

theorem fallbackWords_flatten (s : List Char) :
    (fallbackWords s).flatten = s := by
  simpa [fallbackWords] using
    fallbackWordsGo_flatten s.length s (Nat.le_refl _) [] (some false) (by
      intro h
      exact absurd h (by simp))

theorem fallbackGraphemes_flatten (s : List Char) :
    (fallbackGraphemes s).flatten = s := by
  induction s with
  | nil => rfl
  | cons c cs ih => simp [fallbackGraphemes] at ih ⊢; exact ih

/-- Claim C3: for every input string and every emit unit (token, word,
grapheme), concatenating in order the pieces produced by `segment` yields
the input exactly. -/
theorem C3_segment_concat (u : EmitUnit) (s : List Char) :
    (segment u s).flatten = s := by
  cases u with
  | token => exact tokenSeg_flatten s
  | word => exact fallbackWords_flatten s
  | grapheme => exact fallbackGraphemes_flatten s

set_option maxHeartbeats 4000000 in
/-- Claim C1: the chunk sequence `["Hello <thi", "nk>reason",
"ing</think> world!"]` with `tags={"think"}` and token emit unit, followed
by flush, emits exactly `text("Hello")`, `text(" ")`, a single
`tag-open{think}`, `text("reasoning")` stamped with `in_tag = think`,
`tag-close{think}`, `text(" ")`, `text("world!")`, `flush`, `end`; the
fragmented tag open produces one `tag-open` event and no literal markup
text. -/
theorem C1_fragmented_think_tag : tokenLoomRun optsThink
    [str "Hello <thi", str "nk>reason", str "ing</think> world!"] =
    [Event.text (str "Hello") {}, Event.text (str " ") {},
     Event.tagOpen (str "think") [] ctxThink,
     Event.text (str "reasoning") ctxThink,
     Event.tagClose (str "think") ctxThink,
     Event.text (str " ") {}, Event.text (str "world!") {},
     Event.flushEv, Event.endEv] := by
  have h1 : feedText optsThink initState (str "Hello <thi") = ([], stHello1) := by
    decide
  have h2 : feedText optsThink stHello1 (str "nk>reason") =
      ([Event.text (str "Hello") {}, Event.text (str " ") {},
        Event.tagOpen (str "think") [] ctxThink], stHello2) := by
    decide
  have h3 : feedText optsThink stHello2 (str "ing</think> world!") =
      ([Event.text (str "reasoning") ctxThink,
        Event.tagClose (str "think") ctxThink,
        Event.text (str " ") {}, Event.text (str "world!") {}], initState) := by
    decide
  have h4 : parserFlush optsThink initState = ([Event.flushEv], initState) := by
    decide
  simp only [tokenLoomRun, runChunks, h1, h2, h3, h4]
  rfl

set_option maxHeartbeats 4000000 in
/-- Claim C2, counterexample: feeding `"<think>incomplete"` with
`tags={"think"}` then flushing does not make the concatenated text of the
`text` events equal `"incomplete"` — `flush` re-injects the opening markup,
so the concatenation is `"incomplete<think>"`. -/
theorem C2_unclosed_tag_cex :
    textConcat (tokenLoomRun optsThink [str "<think>incomplete"]) ≠
      str "incomplete" := by
  have h1 : feedText optsThink initState (str "<think>incomplete") =
      ([Event.tagOpen (str "think") [] ctxThink,
        Event.text (str "inco") ctxThink], stIncomplete) := by
    decide
  have h2 : parserFlush optsThink stIncomplete =
      ([Event.text (str "mplete<think>") ctxThink, Event.flushEv],
       stStaleCtx) := by
    decide
  simp only [tokenLoomRun, runChunks, h1, h2]
  decide

set_option maxHeartbeats 4000000 in
/-- Claim C2, amended: feeding `"<think>incomplete"` with `tags={"think"}`
then flushing emits `tag-open{think}`, `text("inco")`,
`text("mplete<think>")`, `flush`, `end` — no `tag-close`; the tag content is
partially emitted during feed (all but a retained 6-character tail) and
`flush` re-injects the serialized opening markup `<think>` as literal text,
so the concatenated text equals `"incomplete<think>"`. -/
theorem C2_unclosed_tag_amended :
    tokenLoomRun optsThink [str "<think>incomplete"] =
      [Event.tagOpen (str "think") [] ctxThink,
       Event.text (str "inco") ctxThink,
       Event.text (str "mplete<think>") ctxThink,
       Event.flushEv, Event.endEv] := by
  have h1 : feedText optsThink initState (str "<think>incomplete") =
      ([Event.tagOpen (str "think") [] ctxThink,
        Event.text (str "inco") ctxThink], stIncomplete) := by
    decide
  have h2 : parserFlush optsThink stIncomplete =
      ([Event.text (str "mplete<think>") ctxThink, Event.flushEv],
       stStaleCtx) := by
    decide
  simp only [tokenLoomRun, runChunks, h1, h2]
  rfl

set_option maxHeartbeats 4000000 in
/-- Claim C5, counterexample: for the input `"```\ncode\n   ```\ntail"` the
concatenated `code-fence-chunk` text is not `"code\n"` — the three-space
indentation of the close line is included, giving `"code\n   "` (the close
search returns the index of the delimiter, after its indentation, and
everything before that index is emitted as chunk content). -/
theorem C5_indented_close_cex :
    chunkConcat (tokenLoomRun optsDefault [str "```\ncode\n   ```\ntail"]) ≠
      str "code\n" := by
  have h1 : feedText optsDefault initState (str "```\ncode\n   ```\ntail") =
      ([Event.fenceStart .backticks none ⟨none, some ⟨.backticks, none⟩⟩,
        Event.fenceChunk (str "code") ⟨none, some ⟨.backticks, none⟩⟩,
        Event.fenceChunk (str "\n   ") ⟨none, some ⟨.backticks, none⟩⟩,
        Event.fenceEnd ⟨none, some ⟨.backticks, none⟩⟩,
        Event.text (str "tail") {}], initState) := by
    decide
  have h2 : parserFlush optsDefault initState = ([Event.flushEv], initState) := by
    decide
  simp only [tokenLoomRun, runChunks, h1, h2]
  decide

set_option maxHeartbeats 4000000 in
/-- Claim C5, amended: the input `"```\ncode\n   ```\ntail"` followed by
flush emits `code-fence-start`, chunks whose concatenated text is
`"code\n   "` (the indentation of the close line is part of the final
chunk), `code-fence-end`, `text("tail")`, `flush`, `end`. -/
theorem C5_indented_close_amended :
    tokenLoomRun optsDefault [str "```\ncode\n   ```\ntail"] =
      [Event.fenceStart .backticks none ⟨none, some ⟨.backticks, none⟩⟩,
       Event.fenceChunk (str "code") ⟨none, some ⟨.backticks, none⟩⟩,
       Event.fenceChunk (str "\n   ") ⟨none, some ⟨.backticks, none⟩⟩,
       Event.fenceEnd ⟨none, some ⟨.backticks, none⟩⟩,
       Event.text (str "tail") {},
       Event.flushEv, Event.endEv] := by
  have h1 : feedText optsDefault initState (str "```\ncode\n   ```\ntail") =
      ([Event.fenceStart .backticks none ⟨none, some ⟨.backticks, none⟩⟩,
        Event.fenceChunk (str "code") ⟨none, some ⟨.backticks, none⟩⟩,
        Event.fenceChunk (str "\n   ") ⟨none, some ⟨.backticks, none⟩⟩,
        Event.fenceEnd ⟨none, some ⟨.backticks, none⟩⟩,
        Event.text (str "tail") {}], initState) := by
    decide
  have h2 : parserFlush optsDefault initState = ([Event.flushEv], initState) := by
    decide
  simp only [tokenLoomRun, runChunks, h1, h2]
  rfl

/-- Claim C7: the `StreamingParser` constructor defaults `bufferLength` to
64 (not the documented 2048), and `specBufferLength` does default to the
`bufferLength` value. -/
theorem C7_default_buffer_length :
    (mkOpts none).bufferLength = 64 ∧
    (mkOpts none).specBufferLength = (mkOpts none).bufferLength ∧
    (mkOpts none).bufferLength ≠ 2048 := by
  decide

set_option maxHeartbeats 4000000 in
/-- Claim C8, counterexample: after feeding `"<think>incomplete"` and
flushing (which clears `currentTag` but not `context.inTag`), feeding text
that opens a code fence produces a `code-fence-start` event whose stamped
context has both `in_tag` and `in_code_fence` non-empty. -/
theorem C8_ctx_exclusive_cex :
    ((feedText optsThink
        ((parserFlush optsThink
          ((feedText optsThink initState (str "<think>incomplete")).2)).2)
        (str "0123\n```js\nxyz\n")).1.any eventHasBothCtx) = true := by
  have h1 : (feedText optsThink initState (str "<think>incomplete")).2 =
      stIncomplete := by decide
  have h2 : (parserFlush optsThink stIncomplete).2 = stStaleCtx := by decide
  rw [h1, h2]
  decide

/-- Claim C6, counterexample: a sink whose `transform` stage throws, with
error suppression off, does not surface the failure as an `error` event —
the pipeline keeps the original event list unchanged and only records a
console warning. -/
theorem C6_transform_error_cex :
    transformEvent false [throwingPlugin] (Event.text (str "test") {}) =
      ([Event.text (str "test") {}], [str "Plugin error"]) ∧
    containsErrorEv [Event.text (str "test") {}] = false := by
  exact ⟨rfl, rfl⟩

/-- Claim C6, amended: when a sink's `transform` stage throws on an event,
the pipeline keeps the event list that entered that sink's stage (so other
sinks and subsequent events are unaffected) and reports the failure out of
band as a console warning, suppressed when `suppressPluginErrors` is
configured; no `error` event is synthesized. -/
theorem C6_transform_error_amended (suppress : Bool) (nm : List Char)
    (g : StageFn) (m : List Char) (evt : Event)
    (hthrow : g evt = .error m) :
    transformEvent suppress [({ name := nm, transform := some g } : PluginM)]
      evt =
      ([evt], if suppress then [] else [m]) := by
  simp [transformEvent, runPhase, applyPluginStage, runStageList, hthrow]

/-- Witness for `C6_transform_error_amended` at a concrete throwing sink. -/
theorem C6_transform_error_amended_witness :
    transformEvent false [throwingPlugin] (Event.text (str "test") {}) =
      ([Event.text (str "test") {}], [str "Plugin error"]) := by
  simpa [throwingPlugin] using C6_transform_error_amended false (str "faulty")
    (fun _ => .error (str "Plugin error")) (str "Plugin error")
    (Event.text (str "test") {}) rfl

theorem isPrefixOf_append_self (l t : List Char) :
    l.isPrefixOf (l ++ t) = true := by
  induction l with
  | nil => simp [List.isPrefixOf]
  | cons a as ih => simpa [List.isPrefixOf] using ih

theorem takeWhile_append_all {p : Char → Bool} (ws : List Char) (c : Char)
    (r : List Char) (h : ws.all p = true) (hc : p c = false) :
    (ws ++ c :: r).takeWhile p = ws := by
  induction ws with
  | nil => simp [List.takeWhile_cons, hc]
  | cons a as ih =>
    simp only [List.all_cons, Bool.and_eq_true] at h
    simp [List.takeWhile_cons, h.1, ih h.2]

theorem firstIdxOfSub_zero (s pat : List Char) (h : pat.isPrefixOf s = true) :
    firstIdxOfSub s pat = some 0 := by
  unfold firstIdxOfSub firstIdxOfSub.go
  simp [h]

set_option maxHeartbeats 1000000 in
/-- Claim C10: in in-tag mode for tag `name`, when the first occurrence of
`"</name"` in the buffer is not followed (after optional whitespace) by
`>` — e.g. the content contains `"</thinker>"` for an open `think` tag — the
tag handler emits no events and leaves the state (with any further appended
input) completely unchanged, so later content, including a genuine close
tag, is never recognized until flush. -/
theorem C10_unmatched_close_stall (o : Opts) (st : InternalState)
    (name : List Char) (attrs : AttrList) (ws mid : List Char) (c : Char)
    (hmode : st.mode = .inTag)
    (htag : st.currentTag = some ⟨name, attrs⟩)
    (hbuf : st.buffer = '<' :: '/' :: (name ++ ws ++ c :: mid))
    (hws : ws.all jsIsSpace = true)
    (hc : jsIsSpace c = false) (hgt : c ≠ '>') :
    ∀ extra, tagProcess o { st with buffer := st.buffer ++ extra } =
      ([], { st with buffer := st.buffer ++ extra }) := by
  intro extra
  have hshape : st.buffer ++ extra =
      ('<' :: '/' :: name) ++ (ws ++ c :: (mid ++ extra)) := by
    simp [hbuf]
  have hpre : ('<' :: '/' :: name).isPrefixOf (st.buffer ++ extra) = true := by
    rw [hshape]
    exact isPrefixOf_append_self _ _
  have hfirst : firstIdxOfSub (st.buffer ++ extra) ('<' :: '/' :: name) =
      some 0 := firstIdxOfSub_zero _ _ hpre
  have hdrop : (st.buffer ++ extra).drop (2 + name.length) =
      ws ++ c :: (mid ++ extra) := by
    rw [hshape]
    have : ('<' :: '/' :: name).length = 2 + name.length := by
      simp only [List.length_cons]
      omega
    rw [← this, List.drop_left]
  have htake : (ws ++ c :: (mid ++ extra)).takeWhile jsIsSpace = ws :=
    takeWhile_append_all ws c _ hws hc
  have hclose : closeTagMatch name (st.buffer ++ extra) = none := by
    unfold closeTagMatch
    rw [if_pos hpre]
    simp only [hdrop, htake]
    rw [List.drop_left]
    simp [hgt]
  simp only [tagProcess, htag, hfirst]
  simp [hclose]

set_option maxHeartbeats 1000000 in
/-- Witness for `C10_unmatched_close_stall`: the concrete stuck state with
buffer `"</thinker> later </think>"` and open tag `think` is a fixed point
of the tag handler. -/
theorem C10_unmatched_close_stall_witness :
    tagProcess optsThink stStuck = ([], stStuck) := by
  have h := C10_unmatched_close_stall optsThink stStuck (str "think") []
    [] (str "r> later </think>") 'e' rfl rfl (by decide) rfl (by decide)
    (by decide) []
  simpa using h

/-- `pushSegmentedText` only touches the hold buffers: every other state
field is preserved. -/
theorem pushSegmentedText_state (o : Opts) (ts : List Char) (f : Bool)
    (st : InternalState) :
    ((pushSegmentedText o ts f st).2).buffer = st.buffer ∧
    ((pushSegmentedText o ts f st).2).mode = st.mode ∧
    ((pushSegmentedText o ts f st).2).context = st.context ∧
    ((pushSegmentedText o ts f st).2).currentTag = st.currentTag ∧
    ((pushSegmentedText o ts f st).2).currentFence = st.currentFence ∧
    ((pushSegmentedText o ts f st).2).textHold = st.textHold := by
  unfold pushSegmentedText
  dsimp only
  repeat' split
  all_goals simp

theorem pushSegmentedText_buffer (o : Opts) (ts : List Char) (f : Bool)
    (st : InternalState) :
    ((pushSegmentedText o ts f st).2).buffer = st.buffer :=
  (pushSegmentedText_state o ts f st).1

theorem pushSegmentedText_mode (o : Opts) (ts : List Char) (f : Bool)
    (st : InternalState) :
    ((pushSegmentedText o ts f st).2).mode = st.mode :=
  (pushSegmentedText_state o ts f st).2.1

theorem pushSegmentedText_context (o : Opts) (ts : List Char) (f : Bool)
    (st : InternalState) :
    ((pushSegmentedText o ts f st).2).context = st.context :=
  (pushSegmentedText_state o ts f st).2.2.1

theorem pushSegmentedText_currentTag (o : Opts) (ts : List Char) (f : Bool)
    (st : InternalState) :
    ((pushSegmentedText o ts f st).2).currentTag = st.currentTag :=
  (pushSegmentedText_state o ts f st).2.2.2.1

theorem pushSegmentedText_currentFence (o : Opts) (ts : List Char) (f : Bool)
    (st : InternalState) :
    ((pushSegmentedText o ts f st).2).currentFence = st.currentFence :=
  (pushSegmentedText_state o ts f st).2.2.2.2.1

theorem pushSegmentedText_textHold (o : Opts) (ts : List Char) (f : Bool)
    (st : InternalState) :
    ((pushSegmentedText o ts f st).2).textHold = st.textHold :=
  (pushSegmentedText_state o ts f st).2.2.2.2.2

/-- `flushTextHold` only touches the hold buffers: every other state field
is preserved. -/
theorem flushTextHold_state (o : Opts) (st : InternalState) :
    ((flushTextHold o st).2).buffer = st.buffer ∧
    ((flushTextHold o st).2).mode = st.mode ∧
    ((flushTextHold o st).2).context = st.context ∧
    ((flushTextHold o st).2).currentTag = st.currentTag ∧
    ((flushTextHold o st).2).currentFence = st.currentFence := by
  unfold flushTextHold
  dsimp only
  split
  · simp
  · simp [pushSegmentedText_buffer, pushSegmentedText_mode,
      pushSegmentedText_context, pushSegmentedText_currentTag,
      pushSegmentedText_currentFence]

theorem flushTextHold_buffer (o : Opts) (st : InternalState) :
    ((flushTextHold o st).2).buffer = st.buffer :=
  (flushTextHold_state o st).1

theorem flushTextHold_mode (o : Opts) (st : InternalState) :
    ((flushTextHold o st).2).mode = st.mode :=
  (flushTextHold_state o st).2.1

theorem flushTextHold_context (o : Opts) (st : InternalState) :
    ((flushTextHold o st).2).context = st.context :=
  (flushTextHold_state o st).2.2.1

theorem flushTextHold_currentTag (o : Opts) (st : InternalState) :
    ((flushTextHold o st).2).currentTag = st.currentTag :=
  (flushTextHold_state o st).2.2.2.1

theorem flushTextHold_currentFence (o : Opts) (st : InternalState) :
    ((flushTextHold o st).2).currentFence = st.currentFence :=
  (flushTextHold_state o st).2.2.2.2

/-- `textElsePart` never grows the buffer. -/
theorem textElsePart_buffer_le (o : Opts) (st : InternalState) :
    (textElsePart o st).2.buffer.length ≤ st.buffer.length := by
  unfold textElsePart
  dsimp only
  repeat' split
  all_goals
    simp [flushTextHold_buffer, List.length_drop, List.length_take] <;> omega

theorem movePlainPrefix_mode (st : InternalState) (idx : Nat) :
    (movePlainPrefix st idx).mode = st.mode := by
  unfold movePlainPrefix
  split <;> rfl

theorem movePlainPrefix_currentTag (st : InternalState) (idx : Nat) :
    (movePlainPrefix st idx).currentTag = st.currentTag := by
  unfold movePlainPrefix
  split <;> rfl

theorem movePlainPrefix_currentFence (st : InternalState) (idx : Nat) :
    (movePlainPrefix st idx).currentFence = st.currentFence := by
  unfold movePlainPrefix
  split <;> rfl

theorem movePlainPrefix_buffer_le (st : InternalState) (idx : Nat) :
    (movePlainPrefix st idx).buffer.length ≤ st.buffer.length := by
  unfold movePlainPrefix
  split <;> simp [List.length_drop]

/-- `textProcessMain` never grows the buffer. -/
theorem textProcessMain_buffer_le (o : Opts) (st : InternalState) :
    (textProcessMain o st).2.buffer.length ≤ st.buffer.length := by
  unfold textProcessMain
  dsimp only
  repeat' split
  all_goals
    first
    | exact textElsePart_buffer_le o st
    | simp [flushTextHold_buffer, List.length_drop]

/-- `textProcess` never grows the buffer. -/
theorem textProcess_buffer_le (o : Opts) (st : InternalState) :
    (textProcess o st).2.buffer.length ≤ st.buffer.length := by
  unfold textProcess
  repeat' split
  all_goals
    first
    | simp [List.length_drop]
    | exact le_trans (textProcessMain_buffer_le o _)
        (movePlainPrefix_buffer_le st _)

/-- `tagProcess` never grows the buffer. -/
theorem tagProcess_buffer_le (o : Opts) (st : InternalState) :
    (tagProcess o st).2.buffer.length ≤ st.buffer.length := by
  unfold tagProcess
  dsimp only
  repeat' split
  all_goals
    simp [pushSegmentedText_buffer, List.length_drop, List.length_take] <;>
      omega

/-- `fenceProcess` never grows the buffer. -/
theorem fenceProcess_buffer_le (o : Opts) (st : InternalState) :
    (fenceProcess o st).2.buffer.length ≤ st.buffer.length := by
  unfold fenceProcess
  dsimp only
  repeat' split
  all_goals
    simp [pushSegmentedText_buffer, List.length_drop, List.length_take] <;>
      omega

/-- Dispatching the current mode's handler never grows the buffer. -/
theorem stepMode_buffer_le (o : Opts) (st : InternalState) :
    (stepMode o st).2.buffer.length ≤ st.buffer.length := by
  unfold stepMode
  cases st.mode with
  | text => exact textProcess_buffer_le o st
  | inTag => exact tagProcess_buffer_le o st
  | inFence => exact fenceProcess_buffer_le o st

/-- Claim C9: `feed` terminates on every input — every handler invocation
either consumes at least one buffer character or makes no progress (the
buffer never grows during handler processing), and the dispatch loop exits
as soon as an iteration leaves the buffer length unchanged or the buffer is
empty (returning exactly that iteration's output). -/
theorem C9_feed_progress (o : Opts) (st : InternalState) :
    (stepMode o st).2.buffer.length ≤ st.buffer.length ∧
    (st.buffer ≠ [] → (stepMode o st).2.buffer.length = st.buffer.length →
      feedLoop o st = stepMode o st) ∧
    (st.buffer = [] → feedLoop o st = ([], st)) := by
  refine ⟨stepMode_buffer_le o st, ?_, ?_⟩
  · intro hne heq
    obtain ⟨k, hk⟩ : ∃ k, st.buffer.length = k + 1 := by
      cases hb : st.buffer with
      | nil => exact absurd hb hne
      | cons c t => exact ⟨t.length, by simp [hb]⟩
    have hnempty : st.buffer.isEmpty = false := by
      cases hb : st.buffer with
      | nil => exact absurd hb hne
      | cons c t => rfl
    rw [feedLoop, hk]
    rcases hstep : stepMode o st with ⟨evs, st1⟩
    have hlt : ¬st1.buffer.length < st.buffer.length := by
      have : st1.buffer.length = st.buffer.length := by
        simpa [hstep] using heq
      omega
    simp [feedLoopF, hnempty, hstep, hlt]
  · intro h
    rw [feedLoop, h]
    rfl

/-- Witness for `C9_feed_progress`: on the buffer `"<thi"` (a potential tag
start, shorter than `specMinParseLength`) the text handler makes no
progress, and the dispatch loop returns that iteration's result
unchanged. -/
theorem C9_feed_progress_witness :
    feedLoop optsThink stHello1 = stepMode optsThink stHello1 :=
  (C9_feed_progress optsThink stHello1).2.1 (by decide) (by decide)

theorem textElsePart_inv (o : Opts) (st : InternalState)
    (hm : st.mode = .text) (hct : st.currentTag = none)
    (hcf : st.currentFence = none) : InvA (textElsePart o st).2 := by
  unfold textElsePart
  dsimp only
  repeat' split
  all_goals refine ⟨fun hmode => ?_, fun hmode => ?_, fun hmode => ?_⟩
  all_goals
    simp_all [flushTextHold_mode, flushTextHold_currentTag,
      flushTextHold_currentFence]

theorem textProcessMain_inv (o : Opts) (st : InternalState)
    (hm : st.mode = .text) (hct : st.currentTag = none)
    (hcf : st.currentFence = none) : InvA (textProcessMain o st).2 := by
  unfold textProcessMain
  dsimp only
  repeat' split
  all_goals
    first
    | exact textElsePart_inv o st hm hct hcf
    | (refine ⟨fun hmode => ?_, fun hmode => ?_, fun hmode => ?_⟩
       all_goals
         simp_all [flushTextHold_mode, flushTextHold_currentTag,
           flushTextHold_currentFence])

theorem textProcess_inv (o : Opts) (st : InternalState) (h : InvA st)
    (hm : st.mode = .text) : InvA (textProcess o st).2 := by
  obtain ⟨h1, hi2, hi3⟩ := h
  obtain ⟨hct, hcf⟩ := h1 hm
  unfold textProcess
  repeat' split
  all_goals
    first
    | exact textProcessMain_inv o _
        (by rw [movePlainPrefix_mode]; exact hm)
        (by rw [movePlainPrefix_currentTag]; exact hct)
        (by rw [movePlainPrefix_currentFence]; exact hcf)
    | (refine ⟨fun hmode => ?_, fun hmode => ?_, fun hmode => ?_⟩
       all_goals simp_all)

theorem tagProcess_inv (o : Opts) (st : InternalState) (h : InvA st)
    (hm : st.mode = .inTag) : InvA (tagProcess o st).2 := by
  obtain ⟨_, h2, _⟩ := h
  have hcf := h2 hm
  unfold tagProcess
  dsimp only
  repeat' split
  all_goals
    simp_all [InvA, pushSegmentedText_mode, pushSegmentedText_currentTag,
      pushSegmentedText_currentFence]

theorem fenceProcess_inv (o : Opts) (st : InternalState) (h : InvA st)
    (hm : st.mode = .inFence) : InvA (fenceProcess o st).2 := by
  obtain ⟨_, _, h3⟩ := h
  have hct := h3 hm
  unfold fenceProcess
  dsimp only
  repeat' split
  all_goals
    simp_all [InvA, pushSegmentedText_mode, pushSegmentedText_currentTag,
      pushSegmentedText_currentFence]

theorem stepMode_inv (o : Opts) (st : InternalState) (h : InvA st) :
    InvA (stepMode o st).2 := by
  unfold stepMode
  cases hm : st.mode with
  | text => exact textProcess_inv o st h hm
  | inTag => exact tagProcess_inv o st h hm
  | inFence => exact fenceProcess_inv o st h hm

theorem flushTextHold_inv (o : Opts) (st : InternalState) (h : InvA st) :
    InvA (flushTextHold o st).2 := by
  obtain ⟨h1, h2, h3⟩ := h
  refine ⟨?_, ?_, ?_⟩ <;>
    simp [flushTextHold_mode, flushTextHold_currentTag,
      flushTextHold_currentFence] <;>
    intro hm
  · exact h1 hm
  · exact h2 hm
  · exact h3 hm

theorem feedLoopF_inv (o : Opts) (fuel : Nat) :
    ∀ (st : InternalState), InvA st → InvA (feedLoopF o fuel st).2 := by
  induction fuel with
  | zero => intro st h; exact h
  | succ n ih =>
    intro st h
    unfold feedLoopF
    dsimp only
    split
    · exact h
    · rcases hstep : stepMode o st with ⟨evs, st1⟩
      have h1 : InvA st1 := by
        have := stepMode_inv o st h
        rwa [hstep] at this
      split
      · split
        · rcases hfl : flushTextHold o st1 with ⟨evs2, st2⟩
          have h2 : InvA st2 := by
            have := flushTextHold_inv o st1 h1
            rwa [hfl] at this
          rcases hrec : feedLoopF o n st2 with ⟨evs3, st3⟩
          have h3 := ih st2 h2
          rw [hrec] at h3
          simpa using h3
        · rcases hrec : feedLoopF o n st1 with ⟨evs3, st3⟩
          have h3 := ih st1 h1
          rw [hrec] at h3
          simpa using h3
      · exact h1

theorem feedText_inv (o : Opts) (st : InternalState) (input : List Char)
    (h : InvA st) : InvA (feedText o st input).2 := by
  unfold feedText feedLoop
  dsimp only
  have hst0 : InvA { st with buffer := st.buffer ++ input } := by
    obtain ⟨h1, h2, h3⟩ := h
    exact ⟨h1, h2, h3⟩
  rcases hloop : feedLoopF o ({ st with buffer := st.buffer ++ input } :
      InternalState).buffer.length { st with buffer := st.buffer ++ input }
    with ⟨evs, st1⟩
  have h1 : InvA st1 := by
    have := feedLoopF_inv o
      ({ st with buffer := st.buffer ++ input } :
        InternalState).buffer.length
      { st with buffer := st.buffer ++ input } hst0
    rwa [hloop] at this
  split
  · rcases hfl : flushTextHold o st1 with ⟨evs2, st2⟩
    have := flushTextHold_inv o st1 h1
    rwa [hfl] at this
  · exact h1

theorem parserFlush_inv (o : Opts) (st : InternalState) (h : InvA st) :
    InvA (parserFlush o st).2 := by
  obtain ⟨h1, h2, h3⟩ := h
  unfold parserFlush
  dsimp only
  repeat' split
  all_goals
    simp_all [InvA, flushTextHold_mode, flushTextHold_currentTag,
      flushTextHold_currentFence]

/-- Every reachable state satisfies the structural-scope invariant. -/
theorem reachable_invA (o : Opts) (st : InternalState)
    (h : Reachable o st) : InvA st := by
  induction h with
  | init => refine ⟨fun _ => ⟨rfl, rfl⟩, fun hh => ?_, fun hh => ?_⟩ <;>
      simp [initState] at hh
  | feed st input _ ih => exact feedText_inv o st input ih
  | flush st _ ih => exact parserFlush_inv o st ih

/-- Claim C8, amended: no parser state reachable by any sequence of `feed`
and `flush` calls has both a current tag and a current fence set at the same
time (the event-context half of the original claim is refuted by
`C8_ctx_exclusive_cex`). -/
theorem C8_invariant_amended (o : Opts) (st : InternalState)
    (h : Reachable o st) :
    st.currentTag = none ∨ st.currentFence = none := by
  have hi := reachable_invA o st h
  cases hm : st.mode with
  | text => exact Or.inl (hi.1 hm).1
  | inTag => exact Or.inr (hi.2.1 hm)
  | inFence => exact Or.inl (hi.2.2 hm)

/-- Witness for `C8_invariant_amended` at the initial state. -/
theorem C8_invariant_amended_witness :
    initState.currentTag = none ∨ initState.currentFence = none :=
  C8_invariant_amended optsDefault initState Reachable.init

theorem takeWhile_all_eq {p : Char → Bool} {l : List Char}
    (h : l.all p = true) : l.takeWhile p = l := by
  induction l with
  | nil => rfl
  | cons a as ih =>
    simp only [List.all_cons, Bool.and_eq_true] at h
    simp [List.takeWhile_cons, h.1, ih h.2]

theorem takeWhile_append_of_all {p : Char → Bool} (a rest : List Char)
    (h : a.all p = true) :
    (a ++ rest).takeWhile p = a ++ rest.takeWhile p := by
  induction a with
  | nil => rfl
  | cons x xs ih =>
    simp only [List.all_cons, Bool.and_eq_true] at h
    simp [List.takeWhile_cons, h.1, ih h.2]

theorem eq_replicate_of_all_space {l : List Char}
    (h : l.all (· = ' ') = true) : l = List.replicate l.length ' ' := by
  induction l with
  | nil => rfl
  | cons c t ih =>
    simp only [List.all_cons, Bool.and_eq_true, decide_eq_true_eq] at h
    rw [h.1, List.length_cons, List.replicate_succ]
    exact congrArg (List.cons ' ') (ih h.2)

theorem takeWhile_spaces_replicate (s : List Char) :
    s.takeWhile (· = ' ') =
      List.replicate (s.takeWhile (· = ' ')).length ' ' := by
  have h : (s.takeWhile (· = ' ')).all (· = ' ') = true := by
    induction s with
    | nil => rfl
    | cons c t ih =>
      by_cases hc : c = ' '
      · simp [List.takeWhile_cons, hc, ih]
      · simp [List.takeWhile_cons, hc]
  exact eq_replicate_of_all_space h

theorem drop_takeWhile_length (p : Char → Bool) : ∀ s : List Char,
    s.drop (s.takeWhile p).length = s.dropWhile p := by
  intro s
  induction s with
  | nil => rfl
  | cons c t ih =>
    by_cases h : p c
    · simp [List.takeWhile_cons, List.dropWhile_cons, h, ih]
    · simp [List.takeWhile_cons, List.dropWhile_cons, h]

theorem all_takeWhile (p : Char → Bool) : ∀ s : List Char,
    (s.takeWhile p).all p = true := by
  intro s
  induction s with
  | nil => rfl
  | cons c t ih =>
    by_cases h : p c
    · simp [List.takeWhile_cons, h, ih]
    · simp [List.takeWhile_cons, h]

theorem dropWhile_head_not (p : Char → Bool) : ∀ (s : List Char)
    (x : Char) (xs : List Char), s.dropWhile p = x :: xs → p x = false := by
  intro s
  induction s with
  | nil => intro x xs h; cases h
  | cons c t ih =>
    intro x xs h
    by_cases hc : p c
    · exact ih x xs (by simpa [List.dropWhile_cons, hc] using h)
    · rw [List.dropWhile_cons, if_neg hc] at h
      cases h
      simpa using hc

/-- The Boolean condition inside `fenceCloseHead`, as a proposition. -/
theorem fenceCloseHead_isSome_iff (delim s : List Char) :
    (fenceCloseHead delim s).isSome = true ↔
      ((s.takeWhile (· = ' ')).length ≤ 3 ∧
       delim.isPrefixOf (s.drop (s.takeWhile (· = ' ')).length) = true ∧
       wsToEol (s.drop ((s.takeWhile (· = ' ')).length + delim.length)) = true) := by
  unfold fenceCloseHead
  dsimp only
  split
  · rename_i hcond
    simp only [Bool.and_eq_true, decide_eq_true_eq] at hcond
    simp [hcond.1.1, hcond.1.2, hcond.2]
  · rename_i hcond
    simp only [Bool.and_eq_true, decide_eq_true_eq] at hcond
    simp only [Option.isSome_none, Bool.false_eq_true, false_iff]
    intro ⟨h1, h2, h3⟩
    exact hcond ⟨⟨h1, h2⟩, h3⟩

/-- Bridge: an anchored fence-close match at a line start is exactly the
claim's closing-line form of that line. -/
theorem fenceCloseHead_iff_closing (s : List Char) (c : Char) (n : Nat)
    (hn : 1 ≤ n) (hsp : c ≠ ' ') (hnl : c ≠ '\n') (hws : jsIsSpace c = false) :
    (fenceCloseHead (List.replicate n c) s).isSome = true ↔
      closingLineSpec c n (s.takeWhile (· ≠ '\n')) := by
  have hreplall : ∀ (m : Nat) (p : Char → Bool), p c = true →
      (List.replicate m c).all p = true := by
    intro m p hp
    simp [List.all_eq_true, hp]
  rw [fenceCloseHead_isSome_iff]
  rw [List.length_replicate]
  constructor
  · rintro ⟨h1, h2, h3⟩
    rw [List.isPrefixOf_iff_prefix] at h2
    obtain ⟨r, hr⟩ := h2
    -- hr : replicate n c ++ r = s.drop sp
    have hsplit : s = s.takeWhile (· = ' ') ++ (List.replicate n c ++ r) := by
      rw [hr, drop_takeWhile_length, List.takeWhile_append_dropWhile]
    have hdropn : s.drop ((s.takeWhile (· = ' ')).length + n) = r := by
      have h0 := List.drop_left (List.replicate n c) r
      rw [hr, List.length_replicate] at h0
      rw [← h0, List.drop_drop, Nat.add_comm]
    rw [hdropn] at h3
    have hspaces_nl : (s.takeWhile (· = ' ')).all (· ≠ '\n') = true := by
      rw [takeWhile_spaces_replicate s]
      simp [List.all_eq_true]
    have hdelim_nl : (List.replicate n c).all (· ≠ '\n') = true :=
      hreplall _ _ (by simp [hnl])
    unfold wsToEol at h3
    dsimp only at h3
    rw [Bool.or_eq_true] at h3
    have hline : ∀ tail : List Char, tail.all (· ≠ '\n') = true →
        (s.takeWhile (· = ' ') ++ (List.replicate n c ++ tail)).takeWhile
          (· ≠ '\n') = s.takeWhile (· = ' ') ++ (List.replicate n c ++ tail) := by
      intro tail htail
      rw [takeWhile_append_of_all _ _ hspaces_nl,
          takeWhile_append_of_all _ _ hdelim_nl, takeWhile_all_eq htail]
    rcases h3 with h3 | h3
    · -- the rest of the buffer is newline-free whitespace
      have hq := all_takeWhile (fun x => jsIsSpace x && x ≠ '\n') r
      have hu : r.takeWhile (fun x => jsIsSpace x && x ≠ '\n') = r := by
        have hpref := List.takeWhile_prefix
          (l := r) (p := fun x => jsIsSpace x && x ≠ '\n')
        exact hpref.eq_of_length (by simpa using h3)
      rw [hu] at hq
      have hrws : r.all jsIsSpace = true := by
        simp only [List.all_eq_true, Bool.and_eq_true] at hq ⊢
        exact fun x hx => (hq x hx).1
      have hrnl : r.all (· ≠ '\n') = true := by
        simp only [List.all_eq_true, Bool.and_eq_true] at hq ⊢
        intro x hx
        simpa using (hq x hx).2
      refine ⟨(s.takeWhile (· = ' ')).length, r, h1, ?_, hrws⟩
      conv_lhs => rw [hsplit]
      rw [hline r hrnl, ← takeWhile_spaces_replicate]
      first
      | rfl
      | simp [List.append_assoc]
    · -- newline-free whitespace, then a newline
      set q : Char → Bool := fun x => jsIsSpace x && x ≠ '\n' with hq_def
      obtain ⟨t, ht⟩ := List.takeWhile_prefix (l := r) (p := q)
      have htdrop : r.drop (r.takeWhile q).length = t := by
        have h0 := List.drop_left (r.takeWhile q) t
        rw [ht] at h0
        exact h0
      rw [htdrop] at h3
      obtain ⟨t2, ht2⟩ : ∃ t2, t = '\n' :: t2 := by
        cases t with
        | nil => exact absurd (of_decide_eq_true h3) (by simp)
        | cons y ys =>
          have hy : y = '\n' := by
            have h0 := of_decide_eq_true h3
            simpa using h0
          exact ⟨ys, by rw [hy]⟩
      have huq := all_takeWhile q r
      have huws : (r.takeWhile q).all jsIsSpace = true := by
        simp only [List.all_eq_true, hq_def, Bool.and_eq_true] at huq ⊢
        exact fun x hx => (huq x hx).1
      have hunl : (r.takeWhile q).all (· ≠ '\n') = true := by
        simp only [List.all_eq_true, hq_def, Bool.and_eq_true] at huq ⊢
        intro x hx
        simpa using (huq x hx).2
      refine ⟨(s.takeWhile (· = ' ')).length, r.takeWhile q, h1, ?_, huws⟩
      conv_lhs => rw [hsplit]
      have hrdecomp : List.replicate n c ++ r =
          (List.replicate n c ++ r.takeWhile q) ++ '\n' :: t2 := by
        rw [List.append_assoc, ← ht2, ht]
      rw [hrdecomp,
          takeWhile_append_of_all _ _ hspaces_nl,
          takeWhile_append_all _ '\n' t2
            (by rw [List.all_append, hdelim_nl, hunl]; rfl) (by simp),
          ← takeWhile_spaces_replicate]
      simp [List.append_assoc]
  · rintro ⟨k, tail, hk, hline, htail⟩
    have hline_all := all_takeWhile (fun x => x ≠ '\n') s
    rw [hline] at hline_all
    simp only [List.all_append, Bool.and_eq_true] at hline_all
    have htail_nl : tail.all (· ≠ '\n') = true := hline_all.2
    obtain ⟨m, hm⟩ : ∃ m, n = m + 1 := ⟨n - 1, by omega⟩
    have hs : s = List.replicate k ' ' ++ (List.replicate n c ++
        (tail ++ s.dropWhile (· ≠ '\n'))) := by
      conv_lhs =>
        rw [← List.takeWhile_append_dropWhile (p := (· ≠ '\n')) (l := s)]
      rw [hline]
      simp [List.append_assoc]
    have hsw : s.takeWhile (· = ' ') = List.replicate k ' ' := by
      conv_lhs => rw [hs]
      have hshape : List.replicate n c ++ (tail ++ s.dropWhile (· ≠ '\n')) =
          c :: (List.replicate m c ++ (tail ++ s.dropWhile (· ≠ '\n'))) := by
        rw [hm]
        simp [List.replicate_succ]
      rw [hshape]
      exact takeWhile_append_all _ c _ (by simp [List.all_eq_true])
        (by simp [hsp])
    have hsw_len : (s.takeWhile (· = ' ')).length = k := by
      rw [hsw, List.length_replicate]
    refine ⟨by rw [hsw_len]; exact hk, ?_, ?_⟩
    · rw [hsw_len]
      have hdrop : s.drop k = List.replicate n c ++
          (tail ++ s.dropWhile (· ≠ '\n')) := by
        conv_lhs => rw [hs]
        have h0 := List.drop_left (List.replicate k ' ')
          (List.replicate n c ++ (tail ++ s.dropWhile (· ≠ '\n')))
        rwa [List.length_replicate] at h0
      rw [hdrop, List.isPrefixOf_iff_prefix]
      exact ⟨_, rfl⟩
    · rw [hsw_len]
      have hdrop2 : s.drop (k + n) = tail ++ s.dropWhile (· ≠ '\n') := by
        conv_lhs => rw [hs]
        have h0 := List.drop_left (List.replicate k ' ' ++ List.replicate n c)
          (tail ++ s.dropWhile (· ≠ '\n'))
        rw [List.length_append, List.length_replicate, List.length_replicate]
          at h0
        rw [List.append_assoc] at h0
        exact h0
      rw [hdrop2]
      unfold wsToEol
      dsimp only
      have htail_q : tail.all (fun x => jsIsSpace x && x ≠ '\n') = true := by
        simp only [List.all_eq_true, Bool.and_eq_true] at htail htail_nl ⊢
        exact fun x hx => ⟨htail x hx, by simpa using htail_nl x hx⟩
      rcases hrest : s.dropWhile (· ≠ '\n') with _ | ⟨y, ys⟩
      · rw [List.append_nil, takeWhile_all_eq htail_q]
        simp
      · have hy : y = '\n' := by
          have h0 := dropWhile_head_not (· ≠ '\n') s y ys hrest
          simpa using h0
        subst hy
        rw [takeWhile_append_all _ '\n' ys htail_q (by simp)]
        have h0 := List.drop_left tail ('\n' :: ys)
        rw [h0]
        simp

theorem splitNl_shape : ∀ t : List Char,
    ∃ ls, splitNl t = t.takeWhile (· ≠ '\n') :: ls := by
  intro t
  induction t with
  | nil => exact ⟨[], rfl⟩
  | cons ch t ih =>
    by_cases h : ch = '\n'
    · subst h
      refine ⟨splitNl t, ?_⟩
      simp [splitNl, List.takeWhile_cons]
    · obtain ⟨ls, hls⟩ := ih
      refine ⟨ls, ?_⟩
      simp [splitNl, h, hls, List.takeWhile_cons]

theorem idxCloseGo_iff (delim : List Char) (P : List Char → Prop)
    (hbr : ∀ x : List Char,
      (fenceCloseHead delim x).isSome = true ↔ P (x.takeWhile (· ≠ '\n'))) :
    ∀ (s : List Char) (i : Nat),
      ((indexOfFenceClose.go delim) s i).isSome = true ↔
        ∃ l ∈ (splitNl s).tail, P l := by
  intro s
  induction s with
  | nil =>
    intro i
    simp [indexOfFenceClose.go, splitNl]
  | cons ch t ih =>
    intro i
    by_cases h : ch = '\n'
    · subst h
      obtain ⟨ls, hls⟩ := splitNl_shape t
      rw [show splitNl ('\n' :: t) = [] :: splitNl t from by simp [splitNl]]
      simp only [List.tail_cons]
      unfold indexOfFenceClose.go
      rw [if_pos rfl]
      rcases hfc : fenceCloseHead delim t with _ | sp
      · have hnp : ¬P (t.takeWhile (· ≠ '\n')) := by
          rw [← hbr t, hfc]
          simp
        rw [hls]
        simp only [Option.isSome_none, List.mem_cons]
        constructor
        · intro hgo
          obtain ⟨l, hl, hPl⟩ := (ih (i + 1)).mp hgo
          rw [hls] at hl
          exact ⟨l, Or.inr (by simpa using hl), hPl⟩
        · rintro ⟨l, hl | hl, hPl⟩
          · exact absurd (hl ▸ hPl) hnp
          · exact (ih (i + 1)).mpr (by rw [hls]; exact ⟨l, by simpa using hl, hPl⟩)
      · have hP : P (t.takeWhile (· ≠ '\n')) := by
          rw [← hbr t, hfc]
          rfl
        rw [hls]
        simp only [Option.isSome_some, List.mem_cons, true_iff]
        exact ⟨t.takeWhile (· ≠ '\n'), Or.inl rfl, hP⟩
    · obtain ⟨l0, ls, hls⟩ : ∃ l0 ls, splitNl t = l0 :: ls := by
        obtain ⟨ls, hls⟩ := splitNl_shape t
        exact ⟨_, ls, hls⟩
      have hsh : splitNl (ch :: t) = (ch :: l0) :: ls := by
        simp [splitNl, h, hls]
      rw [hsh]
      simp only [List.tail_cons]
      unfold indexOfFenceClose.go
      rw [if_neg h]
      rw [ih (i + 1), hls]
      simp

set_option maxHeartbeats 1000000 in
/-- Claim C4: while in fence mode with an open fence of length `fenceLen`
and open character `c`, the buffered content contains a closing match if and
only if one of its lines consists — after at most three leading spaces — of
exactly `fenceLen` copies of `c` followed only by whitespace; a run of the
wrong length, or a delimiter followed by a non-whitespace character on its
line, does not close the fence. -/
theorem C4_fence_close_iff (s : List Char) (c : Char) (n : Nat)
    (hc : c = btChar ∨ c = '~') (hn : 3 ≤ n) :
    (indexOfFenceClose s (List.replicate n c)).isSome = true ↔
      ∃ l ∈ splitNl s, closingLineSpec c n l := by
  have hsp : c ≠ ' ' := by rcases hc with h | h <;> subst h <;> decide
  have hnl : c ≠ '\n' := by rcases hc with h | h <;> subst h <;> decide
  have hws : jsIsSpace c = false := by
    rcases hc with h | h <;> subst h <;> decide
  have hbr := fun x => fenceCloseHead_iff_closing x c n (by omega) hsp hnl hws
  obtain ⟨ls, hls⟩ := splitNl_shape s
  unfold indexOfFenceClose
  rcases hfc : fenceCloseHead (List.replicate n c) s with _ | sp
  · have hnp : ¬closingLineSpec c n (s.takeWhile (· ≠ '\n')) := by
      rw [← hbr s, hfc]
      simp
    dsimp only
    rw [idxCloseGo_iff (List.replicate n c) (closingLineSpec c n) hbr s 0, hls]
    simp only [List.tail_cons, List.mem_cons]
    constructor
    · rintro ⟨l, hl, hPl⟩
      exact ⟨l, Or.inr hl, hPl⟩
    · rintro ⟨l, hl | hl, hPl⟩
      · exact absurd (hl ▸ hPl) hnp
      · exact ⟨l, hl, hPl⟩
  · have hP : closingLineSpec c n (s.takeWhile (· ≠ '\n')) := by
      rw [← hbr s, hfc]
      rfl
    dsimp only
    rw [hls]
    simp only [Option.isSome_some, List.mem_cons, true_iff]
    exact ⟨s.takeWhile (· ≠ '\n'), Or.inl rfl, hP⟩

set_option maxHeartbeats 1000000 in
/-- Witness for `C4_fence_close_iff`: in the buffer `"a\n  ~~~ \nb"` with an
open `~~~` (length 3) fence, the close is found, and correspondingly the
second line has the closing form. -/
theorem C4_fence_close_iff_witness :
    ∃ l ∈ splitNl (str "a\n  ~~~ \nb"), closingLineSpec '~' 3 l :=
  (C4_fence_close_iff (str "a\n  ~~~ \nb") '~' 3 (Or.inr rfl) (by decide)).mp
    (by decide)

end TokenLoom
